import Mathlib

/-!
Verification development for the gitfourchette repository core:
the single-flight `RepoTaskRunner` / `RepoTask` engine
(`gitfourchette/tasks/repotask.py`), the diff-view line index and
apply-direction logic (`gitfourchette/diffview/diffview.py`), and the
sub-patch extractor.

Machine integers are embedded as `Nat`/`Int`; `enum.IntFlag` values are
`Nat` bitmasks; Qt signals and message boxes become events on a trace.
-/

set_option maxHeartbeats 1000000

namespace Gitfourchette

/-! ## `TaskAffectsWhat` (repotask.py lines 47-51)

```
class TaskAffectsWhat(enum.IntFlag):
    NOTHING = 0
    INDEX = enum.auto()
    LOCALREFS = enum.auto()
    REMOTES = enum.auto()
```
`enum.auto()` in an `IntFlag` assigns successive powers of two: 1, 2, 4. -/

inductive TaskAffectsWhat where
  | NOTHING
  | INDEX
  | LOCALREFS
  | REMOTES
deriving DecidableEq, Repr, Fintype

def TaskAffectsWhat.val : TaskAffectsWhat → Nat
  | .NOTHING => 0
  | .INDEX => 1
  | .LOCALREFS => 2
  | .REMOTES => 4

/-! ## `RepoTask` and `RepoTaskRunner` (repotask.py lines 84-316)

A `RepoTask` subtype supplies:
- `preExecuteUiFlow`: `None`, or a generator that yields
  `TaskYieldTokenBase` tokens (suspend points) and may raise; the flow
  body may set `self.aborted` before the generator is exhausted
  (`cancel()`).  We embed the generator as `flow : Option (List FlowStep)`
  plus `abortAtEnd : Bool` (whether the body sets `aborted` in its final
  segment, i.e. before `StopIteration`).
- `execute`: may raise; embedded as `execRaises : Bool`.
- `refreshWhat`: a fixed bitmask constant per subtype (the base class
  returns `TaskAffectsWhat.NOTHING`); embedded as a `Nat` bitmask field.

The runner state mirrors `RepoTaskRunner.__init__`: `currentTask` starts
`None`; the thread pool has `setMaxThreadCount(1)`, i.e. a single worker
slot, embedded as `workerBusy : Option Task`.  Observable effects
(`log.warning` + `QMessageBox.warning` in `put`, `onError`, starting and
finishing `execute`, the `refreshPostTask` signal, `deleteLater` in
`_clearTask`) are recorded on an event trace. -/

inductive FlowStep where
  /-- The generator yields a `TaskYieldTokenBase` (suspend point). -/
  | yieldToken
  /-- The generator raises an exception at this point. -/
  | raiseExc
deriving DecidableEq, Repr

structure Task where
  tid : Nat
  flow : Option (List FlowStep)
  abortAtEnd : Bool
  execRaises : Bool
  refreshWhat : Nat
deriving DecidableEq, Repr

inductive Event where
  /-- `log.warning` + `QMessageBox.warning` in `put` when a task is already running. -/
  | warn
  /-- `self.currentTask = task` in `put` (the task is accepted). -/
  | accepted (tid : Nat)
  /-- `task.onError(exc)` was invoked. -/
  | errorShown (tid : Nat)
  /-- The worker slot starts running `task.execute()` (`_executeTask`). -/
  | execStart (tid : Nat)
  /-- `task.finished` fired: `execute()` returned or raised (`raised`). -/
  | execFinish (tid : Nat) (raised : Bool)
  /-- `self.refreshPostTask.emit(task.refreshWhat())` in `_onTaskFinished`. -/
  | refresh (tid : Nat) (mask : Nat)
  /-- `self.currentTask.deleteLater()` in `_clearTask` (task discarded). -/
  | cleared (tid : Nat)
deriving DecidableEq, Repr

structure RunnerState where
  currentTask : Option Task
  /-- Steps remaining in the suspended generator after the last yield. -/
  suspendedFlow : List FlowStep
  /-- A `TaskYieldTokenBase` is live: its `continueTask` / `abortTask`
  signals are connected to `_onContinueFlow` / `_clearTask`. -/
  pendingToken : Bool
  /-- The single worker slot (`threadpool.setMaxThreadCount(1)`). -/
  workerBusy : Option Task
  trace : List Event
deriving DecidableEq, Repr

namespace RepoTaskRunner

/-- `RepoTaskRunner.__init__`: `self.currentTask = None`, empty trace. -/
def initialRunner : RunnerState :=
  { currentTask := none, suspendedFlow := [], pendingToken := false,
    workerBusy := none, trace := [] }

/-- `_clearTask` (lines 288-291): `deleteLater`, `self.currentTask = None`. -/
def _clearTask (s : RunnerState) (t : Task) : RunnerState :=
  { s with currentTask := none, suspendedFlow := [], pendingToken := false,
           trace := s.trace ++ [.cleared t.tid] }

/-- `_executeTask` (lines 293-303): hand the task to the worker slot and
start `executeAndEmitFinishedSignal` there. -/
def _executeTask (s : RunnerState) (t : Task) : RunnerState :=
  { s with workerBusy := some t, pendingToken := false,
           trace := s.trace ++ [.execStart t.tid] }

/-- `_onContinueFlow` (lines 256-286): run `next(flow)`.  Either the flow
yields a token (suspend and wait for its signals), or it is exhausted
(`StopIteration`: clear if `aborted`, else execute), or it raises
(`onError` then clear). -/
def _onContinueFlow (s : RunnerState) (t : Task) : List FlowStep → RunnerState
  | [] =>
    if t.abortAtEnd then _clearTask s t
    else _executeTask s t
  | .yieldToken :: rest =>
    { s with suspendedFlow := rest, pendingToken := true }
  | .raiseExc :: _ =>
    _clearTask { s with trace := s.trace ++ [.errorShown t.tid] } t

/-- `put` (lines 240-254): reject with a visible warning when a task is
already current; otherwise accept the task, then either run it right away
(no UI flow) or prime the flow. -/
def put (s : RunnerState) (t : Task) : RunnerState :=
  if s.currentTask.isSome then
    { s with trace := s.trace ++ [.warn] }
  else
    let s1 : RunnerState :=
      { s with currentTask := some t, trace := s.trace ++ [.accepted t.tid] }
    match t.flow with
    | none => _executeTask s1 t
    | some flow => _onContinueFlow s1 t flow

/-- `_onTaskFinished` (lines 305-315): back on the UI thread after
`execute()`; `onError` if it raised, then `postExecute`, then publish
`task.refreshWhat()`, then `_clearTask`. -/
def _onTaskFinished (s : RunnerState) (t : Task) : RunnerState :=
  let s1 : RunnerState :=
    { s with workerBusy := none,
             trace := s.trace ++ [.execFinish t.tid t.execRaises] }
  let s2 : RunnerState :=
    if t.execRaises then { s1 with trace := s1.trace ++ [.errorShown t.tid] }
    else s1
  _clearTask { s2 with trace := s2.trace ++ [.refresh t.tid t.refreshWhat] } t

/-- Environment inputs driving the runner: `put` calls, the live yield
token firing `continueTask` (dialog accepted) or `abortTask` (dialog
rejected), and the worker finishing `execute`. -/
inductive RunnerInput where
  | putTask (t : Task)
  | dialogAccept
  | dialogReject
  | workerFinish
deriving DecidableEq, Repr

def step (s : RunnerState) : RunnerInput → RunnerState
  | .putTask t => put s t
  | .dialogAccept =>
    match s.currentTask, s.pendingToken with
    | some t, true => _onContinueFlow { s with pendingToken := false } t s.suspendedFlow
    | _, _ => s
  | .dialogReject =>
    match s.currentTask, s.pendingToken with
    | some t, true => _clearTask s t
    | _, _ => s
  | .workerFinish =>
    match s.workerBusy with
    | some t => _onTaskFinished s t
    | none => s

def run (s : RunnerState) : List RunnerInput → RunnerState
  | [] => s
  | i :: is => run (step s i) is

/-! ### Trace observations -/

def isExecStart : Event → Bool
  | .execStart _ => true
  | _ => false

def isExecFinish : Event → Bool
  | .execFinish _ _ => true
  | _ => false

/-- Number of `execute()` bodies started so far. -/
def startedCount (tr : List Event) : Nat := (tr.filter isExecStart).length

/-- Number of `execute()` bodies finished so far. -/
def finishedCount (tr : List Event) : Nat := (tr.filter isExecFinish).length

def acceptedTid : Event → Option Nat
  | .accepted i => some i
  | _ => none

/-- Id of the task most recently accepted by `put`. -/
def lastAccepted (tr : List Event) : Option Nat :=
  (tr.filterMap acceptedTid).getLast?

theorem startedCount_append (a b : List Event) :
    startedCount (a ++ b) = startedCount a + startedCount b := by
  simp [startedCount, List.filter_append]

theorem finishedCount_append (a b : List Event) :
    finishedCount (a ++ b) = finishedCount a + finishedCount b := by
  simp [finishedCount, List.filter_append]

/-! ### The single-flight and slot invariants -/

/-- Reachable-state invariant tying the worker slot to the trace: the
slot holds the current task with no live token, and the number of
started-but-unfinished `execute()` bodies is 1 when the slot is busy and
0 otherwise. -/
def WorkerInv (s : RunnerState) : Prop :=
  (∀ t, s.workerBusy = some t → s.currentTask = some t ∧ s.pendingToken = false) ∧
  startedCount s.trace = finishedCount s.trace + (if s.workerBusy.isSome then 1 else 0)

theorem workerInv_initial : WorkerInv initialRunner := by
  constructor
  · intro t ht; simp [initialRunner] at ht
  · simp [initialRunner, startedCount, finishedCount]

theorem workerInv_clearTask (s : RunnerState) (t : Task) (h : WorkerInv s)
    (hw : s.workerBusy = none) : WorkerInv (_clearTask s t) := by
  obtain ⟨_, h2⟩ := h
  constructor
  · intro t' ht'; simp [_clearTask, hw] at ht'
  · simp [_clearTask, startedCount_append, finishedCount_append, hw,
          startedCount, finishedCount, List.filter, isExecStart, isExecFinish]
    simpa [hw] using h2

theorem workerInv_executeTask (s : RunnerState) (t : Task) (h : WorkerInv s)
    (hw : s.workerBusy = none) (hc : s.currentTask = some t) :
    WorkerInv (_executeTask s t) := by
  obtain ⟨_, h2⟩ := h
  constructor
  · intro t' ht'
    simp only [_executeTask] at ht'
    cases ht'
    exact ⟨hc, rfl⟩
  · simp [_executeTask, startedCount_append, finishedCount_append,
          startedCount, finishedCount, List.filter, isExecStart, isExecFinish]
    simpa [hw] using h2

theorem workerInv_onContinueFlow (s : RunnerState) (t : Task) (fs : List FlowStep)
    (h : WorkerInv s) (hw : s.workerBusy = none) (hc : s.currentTask = some t) :
    WorkerInv (_onContinueFlow s t fs) := by
  obtain ⟨h1, h2⟩ := h
  match fs with
  | [] =>
    simp only [_onContinueFlow]
    by_cases hab : t.abortAtEnd
    · simp only [hab, if_true]
      exact workerInv_clearTask s t ⟨h1, h2⟩ hw
    · simp only [hab, if_false]
      exact workerInv_executeTask s t ⟨h1, h2⟩ hw hc
  | .yieldToken :: rest =>
    constructor
    · intro t' ht'; simp [_onContinueFlow, hw] at ht'
    · simpa [_onContinueFlow, hw] using h2
  | .raiseExc :: rest =>
    simp only [_onContinueFlow]
    refine workerInv_clearTask _ t ⟨?_, ?_⟩ hw
    · intro t' ht'; simp [hw] at ht'
    · simp [startedCount_append, finishedCount_append,
            startedCount, finishedCount, List.filter, isExecStart, isExecFinish]
      simpa [hw] using h2

theorem workerInv_step (s : RunnerState) (i : RunnerInput) (h : WorkerInv s) :
    WorkerInv (step s i) := by
  obtain ⟨c, sf, p, w, tr⟩ := s
  have h1 : ∀ t, w = some t → c = some t ∧ p = false := h.1
  have h2 : startedCount tr = finishedCount tr + (if w.isSome then 1 else 0) := h.2
  cases i with
  | putTask t =>
    cases c with
    | some t' =>
      -- `put` rejects: only a warning is appended
      refine ⟨fun u hu => h1 u hu, ?_⟩
      show startedCount (tr ++ [Event.warn])
        = finishedCount (tr ++ [Event.warn]) + (if w.isSome then 1 else 0)
      rw [startedCount_append, finishedCount_append]
      simp [startedCount, finishedCount, List.filter, isExecStart, isExecFinish]
      exact h2
    | none =>
      have hw : w = none := by
        cases hwb : w with
        | none => rfl
        | some u => exact absurd (h1 u hwb).1 (by simp)
      subst hw
      have hInv1 : WorkerInv ⟨some t, sf, p, none, tr ++ [Event.accepted t.tid]⟩ := by
        refine ⟨fun u hu => (nomatch hu), ?_⟩
        show startedCount (tr ++ [Event.accepted t.tid])
          = finishedCount (tr ++ [Event.accepted t.tid]) + 0
        rw [startedCount_append, finishedCount_append]
        simp [startedCount, finishedCount, List.filter, isExecStart, isExecFinish]
        simpa using h2
      show WorkerInv (put ⟨none, sf, p, none, tr⟩ t)
      rw [put]
      cases hf : t.flow with
      | none =>
        exact workerInv_executeTask _ t hInv1 rfl rfl
      | some fs =>
        exact workerInv_onContinueFlow _ t fs hInv1 rfl rfl
  | dialogAccept =>
    cases c with
    | none => exact ⟨h1, h2⟩
    | some t =>
      cases p with
      | false => exact ⟨h1, h2⟩
      | true =>
        have hw : w = none := by
          cases hwb : w with
          | none => rfl
          | some u => exact absurd (h1 u hwb).2 (by simp)
        subst hw
        show WorkerInv (_onContinueFlow ⟨some t, sf, false, none, tr⟩ t sf)
        refine workerInv_onContinueFlow _ t sf ⟨fun u hu => (nomatch hu), ?_⟩ rfl rfl
        simpa using h2
  | dialogReject =>
    cases c with
    | none => exact ⟨h1, h2⟩
    | some t =>
      cases p with
      | false => exact ⟨h1, h2⟩
      | true =>
        have hw : w = none := by
          cases hwb : w with
          | none => rfl
          | some u => exact absurd (h1 u hwb).2 (by simp)
        subst hw
        show WorkerInv (_clearTask ⟨some t, sf, true, none, tr⟩ t)
        refine workerInv_clearTask _ t ⟨fun u hu => (nomatch hu), ?_⟩ rfl
        simpa using h2
  | workerFinish =>
    cases w with
    | none => exact ⟨h1, h2⟩
    | some t =>
      show WorkerInv (_onTaskFinished ⟨c, sf, p, some t, tr⟩ t)
      have h2s : startedCount tr = finishedCount tr + 1 := by simpa using h2
      simp only [startedCount, finishedCount] at h2s
      simp only [_onTaskFinished, _clearTask]
      cases hr : t.execRaises <;>
        refine ⟨fun u hu => (nomatch hu), ?_⟩ <;>
        simp [startedCount_append, finishedCount_append,
              startedCount, finishedCount, List.filter, isExecStart, isExecFinish] <;>
        omega

theorem lastAccepted_append_accepted (tr : List Event) (i : Nat) :
    lastAccepted (tr ++ [Event.accepted i]) = some i := by
  simp [lastAccepted, List.filterMap_append, acceptedTid]

theorem lastAccepted_append_of_none (tr : List Event) (e : Event)
    (he : acceptedTid e = none) :
    lastAccepted (tr ++ [e]) = lastAccepted tr := by
  simp [lastAccepted, List.filterMap_append, he]

/-- `currentTask` is `None` or the task most recently accepted by `put`. -/
def CurrentInv (s : RunnerState) : Prop :=
  ∀ t, s.currentTask = some t → lastAccepted s.trace = some t.tid

/-- `_onContinueFlow` either clears the current task or leaves it (and the
latest accepted id) unchanged. -/
theorem onContinueFlow_shape (s : RunnerState) (t : Task) (fs : List FlowStep) :
    (_onContinueFlow s t fs).currentTask = none ∨
    ((_onContinueFlow s t fs).currentTask = s.currentTask ∧
     lastAccepted (_onContinueFlow s t fs).trace = lastAccepted s.trace) := by
  cases fs with
  | nil =>
    by_cases hab : t.abortAtEnd
    · left; simp [_onContinueFlow, hab, _clearTask]
    · right
      constructor
      · simp [_onContinueFlow, hab, _executeTask]
      · simp only [_onContinueFlow, hab, if_false, _executeTask]
        exact lastAccepted_append_of_none s.trace (Event.execStart t.tid) rfl
  | cons st rest =>
    cases st with
    | yieldToken => right; simp [_onContinueFlow]
    | raiseExc => left; simp [_onContinueFlow, _clearTask]

theorem currentInv_initial : CurrentInv initialRunner := by
  intro t ht; simp [initialRunner] at ht

theorem currentInv_step (s : RunnerState) (i : RunnerInput) (h : CurrentInv s) :
    CurrentInv (step s i) := by
  obtain ⟨c, sf, p, w, tr⟩ := s
  cases i with
  | putTask t =>
    cases c with
    | some t' =>
      intro u hu
      have hu2 : some t' = some u := hu
      cases hu2
      show lastAccepted (tr ++ [Event.warn]) = some t'.tid
      rw [lastAccepted_append_of_none tr Event.warn rfl]
      exact h t' rfl
    | none =>
      show CurrentInv (put ⟨none, sf, p, w, tr⟩ t)
      rw [put]
      cases hf : t.flow with
      | none =>
        intro u hu
        have hu2 : some t = some u := hu
        cases hu2
        show lastAccepted ((tr ++ [Event.accepted t.tid]) ++ [Event.execStart t.tid])
          = some t.tid
        rw [lastAccepted_append_of_none _ (Event.execStart t.tid) rfl,
            lastAccepted_append_accepted]
      | some fs =>
        intro u hu
        rcases onContinueFlow_shape ⟨some t, sf, p, w, tr ++ [Event.accepted t.tid]⟩ t fs
          with hnone | ⟨hsame, hlast⟩
        · exact (nomatch hnone.symm.trans hu)
        · have hu2 : some t = some u := hsame.symm.trans hu
          cases hu2
          exact hlast.trans (lastAccepted_append_accepted tr t.tid)
  | dialogAccept =>
    cases c with
    | none => cases p <;> (intro u hu; exact h u hu)
    | some t =>
      cases p with
      | false => intro u hu; exact h u hu
      | true =>
        intro u hu
        rcases onContinueFlow_shape ⟨some t, sf, false, w, tr⟩ t sf
          with hnone | ⟨hsame, hlast⟩
        · exact (nomatch hnone.symm.trans hu)
        · have hu2 : some t = some u := hsame.symm.trans hu
          cases hu2
          exact hlast.trans (h t rfl)
  | dialogReject =>
    cases c with
    | none => cases p <;> (intro u hu; exact h u hu)
    | some t =>
      cases p with
      | false => intro u hu; exact h u hu
      | true => intro u hu; exact (nomatch hu)
  | workerFinish =>
    cases w with
    | none => intro u hu; exact h u hu
    | some t => intro u hu; exact (nomatch hu)

theorem currentInv_run (inputs : List RunnerInput) :
    CurrentInv (run initialRunner inputs) := by
  have main : ∀ (is : List RunnerInput) (s : RunnerState), CurrentInv s → CurrentInv (run s is) := by
    intro is
    induction is with
    | nil => intro s hs; exact hs
    | cons i is ih => intro s hs; exact ih (step s i) (currentInv_step s i hs)
  exact main inputs initialRunner currentInv_initial

theorem workerInv_run (inputs : List RunnerInput) :
    WorkerInv (run initialRunner inputs) := by
  have main : ∀ (is : List RunnerInput) (s : RunnerState), WorkerInv s → WorkerInv (run s is) := by
    intro is
    induction is with
    | nil => intro s hs; exact hs
    | cons i is ih => intro s hs; exact ih (step s i) (workerInv_step s i hs)
  exact main inputs initialRunner workerInv_initial

/-! ### Driving a single task's interactive flow

User responses at suspend points: `true` = the dialog was accepted
(`continueTask` fires), `false` = rejected (`abortTask` fires). -/

def responsesToInputs (rs : List Bool) : List RunnerInput :=
  rs.map fun b => if b then RunnerInput.dialogAccept else RunnerInput.dialogReject

/-- Whether driving the flow with the given dialog outcomes aborts the
task: a dialog is rejected at a suspend point, or the flow body sets
`aborted` before its generator is exhausted. -/
def flowAbortedAux (abortAtEnd : Bool) : List FlowStep → List Bool → Bool
  | [], _ => abortAtEnd
  | .raiseExc :: _, _ => false
  | .yieldToken :: rest, r :: rs => if r then flowAbortedAux abortAtEnd rest rs else true
  | .yieldToken :: _, [] => false

def flowAborted (t : Task) (rs : List Bool) : Bool :=
  match t.flow with
  | none => false
  | some fs => flowAbortedAux t.abortAtEnd fs rs

/-- An idle runner ignores dialog signals and worker completions. -/
theorem run_idle (sf : List FlowStep) (tr : List Event) (inputs : List RunnerInput)
    (hput : ∀ t, RunnerInput.putTask t ∉ inputs) :
    run ⟨none, sf, false, none, tr⟩ inputs = ⟨none, sf, false, none, tr⟩ := by
  induction inputs with
  | nil => rfl
  | cons i is ih =>
    have hstep : step ⟨none, sf, false, none, tr⟩ i = ⟨none, sf, false, none, tr⟩ := by
      cases i with
      | putTask t => exact absurd (List.mem_cons_self _ _) (hput t)
      | dialogAccept => rfl
      | dialogReject => rfl
      | workerFinish => rfl
    show run (step ⟨none, sf, false, none, tr⟩ i) is = _
    rw [hstep]
    exact ih fun t ht => hput t (List.mem_cons_of_mem _ ht)

theorem no_put_in_responses (rs : List Bool) (t : Task) :
    RunnerInput.putTask t ∉ responsesToInputs rs ++ [RunnerInput.workerFinish] := by
  intro hmem
  rcases List.mem_append.mp hmem with hm | hm
  · rcases List.mem_map.mp hm with ⟨b, _, hb⟩
    cases b <;> simp at hb
  · simp at hm

/-- Driving an aborted flow ends with the task cleared and nothing on the
trace but the `deleteLater` record. -/
theorem abort_drive (t : Task) (fs : List FlowStep) (rs : List Bool)
    (sf : List FlowStep) (tr : List Event)
    (hab : flowAbortedAux t.abortAtEnd fs rs = true) :
    run (_onContinueFlow ⟨some t, sf, false, none, tr⟩ t fs)
        (responsesToInputs rs ++ [RunnerInput.workerFinish])
      = ⟨none, [], false, none, tr ++ [Event.cleared t.tid]⟩ := by
  induction fs generalizing rs sf tr with
  | nil =>
    have habe : t.abortAtEnd = true := hab
    show run (if t.abortAtEnd then _clearTask ⟨some t, sf, false, none, tr⟩ t
              else _executeTask ⟨some t, sf, false, none, tr⟩ t) _ = _
    rw [habe, if_pos rfl]
    exact run_idle [] (tr ++ [Event.cleared t.tid]) _ fun u => no_put_in_responses rs u
  | cons st rest ih =>
    cases st with
    | raiseExc => exact absurd hab (by simp [flowAbortedAux])
    | yieldToken =>
      cases rs with
      | nil => exact absurd hab (by simp [flowAbortedAux])
      | cons r rs2 =>
        cases r with
        | false =>
          show run (⟨some t, rest, true, none, tr⟩ : RunnerState)
              (RunnerInput.dialogReject :: (responsesToInputs rs2 ++ [RunnerInput.workerFinish]))
            = _
          show run (step ⟨some t, rest, true, none, tr⟩ RunnerInput.dialogReject)
              (responsesToInputs rs2 ++ [RunnerInput.workerFinish]) = _
          show run (⟨none, [], false, none, tr ++ [Event.cleared t.tid]⟩ : RunnerState) _ = _
          exact run_idle [] (tr ++ [Event.cleared t.tid]) _ fun u => no_put_in_responses rs2 u
        | true =>
          have hab2 : flowAbortedAux t.abortAtEnd rest rs2 = true := by
            simpa [flowAbortedAux] using hab
          show run (⟨some t, rest, true, none, tr⟩ : RunnerState)
              (RunnerInput.dialogAccept :: (responsesToInputs rs2 ++ [RunnerInput.workerFinish]))
            = _
          show run (step ⟨some t, rest, true, none, tr⟩ RunnerInput.dialogAccept)
              (responsesToInputs rs2 ++ [RunnerInput.workerFinish]) = _
          show run (_onContinueFlow ⟨some t, rest, false, none, tr⟩ t rest)
              (responsesToInputs rs2 ++ [RunnerInput.workerFinish]) = _
          exact ih rs2 rest tr hab2

/-- Shared shape of `_onTaskFinished`: on worker completion the runner
records the finish, shows the error if `execute()` raised, publishes the
task's fixed `refreshWhat()` bitmask, and clears the task. -/
theorem onTaskFinished_trace (s : RunnerState) (t : Task) (h : s.workerBusy = some t) :
    (step s RunnerInput.workerFinish).trace
      = s.trace ++ [Event.execFinish t.tid t.execRaises]
          ++ (if t.execRaises then [Event.errorShown t.tid] else [])
          ++ [Event.refresh t.tid t.refreshWhat, Event.cleared t.tid] := by
  obtain ⟨c, sf, p, w, tr⟩ := s
  have hw : w = some t := h
  subst hw
  show (_onTaskFinished ⟨c, sf, p, some t, tr⟩ t).trace = _
  simp only [_onTaskFinished, _clearTask]
  cases hr : t.execRaises <;> simp

/-- C1: Single-flight: in every reachable runner state, the number of
started but unfinished `execute()` bodies never exceeds one (the worker
context has a single slot), and a call to `put(task)` while a current
task exists reports a visible warning and returns without queueing or
starting the submitted task. -/
theorem C1_single_flight :
    (∀ inputs : List RunnerInput,
      startedCount (run initialRunner inputs).trace
        ≤ finishedCount (run initialRunner inputs).trace + 1) ∧
    (∀ (s : RunnerState) (t : Task), s.currentTask.isSome = true →
      step s (RunnerInput.putTask t) = { s with trace := s.trace ++ [Event.warn] }) := by
  constructor
  · intro inputs
    have h := (workerInv_run inputs).2
    cases hwb : (run initialRunner inputs).workerBusy <;> rw [hwb] at h <;>
      simp at h <;> omega
  · intro s t hc
    show put s t = _
    rw [put, if_pos hc]

/-- Witness for C1: a busy runner rejects a second task with only a warning. -/
theorem C1_single_flight_witness :
    step (⟨some ⟨1, none, false, false, 0⟩, [], false, none, []⟩ : RunnerState)
        (RunnerInput.putTask ⟨2, none, false, false, 0⟩)
      = ⟨some ⟨1, none, false, false, 0⟩, [], false, none, [Event.warn]⟩ :=
  C1_single_flight.2 ⟨some ⟨1, none, false, false, 0⟩, [], false, none, []⟩
    ⟨2, none, false, false, 0⟩ rfl

/-- C2: Cancellation has no side effects: when a task's interactive flow
is aborted (a dialog is rejected, or the flow sets `aborted` before the
generator is exhausted), `execute()` is never invoked, no refresh signal
is published for the task, and the task is discarded: the whole trace is
just the acceptance and the discard. -/
theorem C2_cancellation_no_side_effects (t : Task) (rs : List Bool)
    (hab : flowAborted t rs = true) :
    (run initialRunner
        (RunnerInput.putTask t :: (responsesToInputs rs ++ [RunnerInput.workerFinish]))).trace
      = [Event.accepted t.tid, Event.cleared t.tid] ∧
    (run initialRunner
        (RunnerInput.putTask t :: (responsesToInputs rs ++ [RunnerInput.workerFinish]))).currentTask
      = none ∧
    Event.execStart t.tid ∉ (run initialRunner
        (RunnerInput.putTask t :: (responsesToInputs rs ++ [RunnerInput.workerFinish]))).trace ∧
    ∀ m, Event.refresh t.tid m ∉ (run initialRunner
        (RunnerInput.putTask t :: (responsesToInputs rs ++ [RunnerInput.workerFinish]))).trace := by
  obtain ⟨fs, hf⟩ : ∃ fs, t.flow = some fs := by
    cases hfl : t.flow with
    | none => exact absurd hab (by simp [flowAborted, hfl])
    | some fs => exact ⟨fs, rfl⟩
  have hab2 : flowAbortedAux t.abortAtEnd fs rs = true := by
    simpa [flowAborted, hf] using hab
  have hmain : run initialRunner
      (RunnerInput.putTask t :: (responsesToInputs rs ++ [RunnerInput.workerFinish]))
      = ⟨none, [], false, none, [Event.accepted t.tid, Event.cleared t.tid]⟩ := by
    show run (put initialRunner t) (responsesToInputs rs ++ [RunnerInput.workerFinish]) = _
    have hput : put initialRunner t
        = _onContinueFlow ⟨some t, [], false, none, [Event.accepted t.tid]⟩ t fs := by
      rw [put]
      rw [if_neg (by simp [initialRunner])]
      rw [hf]
      rfl
    rw [hput]
    exact abort_drive t fs rs [] [Event.accepted t.tid] hab2
  rw [hmain]
  refine ⟨rfl, rfl, by simp, fun m => by simp⟩

/-- Witness for C2: rejecting the confirmation dialog of a one-dialog
task leaves only the acceptance and discard on the trace. -/
theorem C2_cancellation_no_side_effects_witness :
    flowAborted ⟨3, some [FlowStep.yieldToken], false, false, 1⟩ [false] = true ∧
    (run initialRunner
        (RunnerInput.putTask ⟨3, some [FlowStep.yieldToken], false, false, 1⟩ ::
          (responsesToInputs [false] ++ [RunnerInput.workerFinish]))).trace
      = [Event.accepted 3, Event.cleared 3] :=
  ⟨rfl, (C2_cancellation_no_side_effects
      ⟨3, some [FlowStep.yieldToken], false, false, 1⟩ [false] rfl).1⟩

/-- C4 counterexample: a task whose `execute()` raises and whose fixed
`refreshWhat()` is `INDEX` (mask 1) still gets mask 1 published by the
runner on completion — `_onTaskFinished` emits `task.refreshWhat()`
regardless of the error, so the published bitmask on failure is not
empty. -/
theorem C4_counterexample :
    (run initialRunner [RunnerInput.putTask ⟨7, none, false, true, 1⟩,
        RunnerInput.workerFinish]).trace
      = [Event.accepted 7, Event.execStart 7, Event.execFinish 7 true,
         Event.errorShown 7, Event.refresh 7 1, Event.cleared 7] ∧
    Event.refresh 7 1 ∈ (run initialRunner [RunnerInput.putTask ⟨7, none, false, true, 1⟩,
        RunnerInput.workerFinish]).trace ∧
    (1 : Nat) ≠ 0 := by
  refine ⟨rfl, by decide, by decide⟩

/-- C4 (amended): on a task's completion the runner publishes the task's
fixed `refreshWhat()` bitmask whether or not `execute()` raised; on
failure the published mask equals the task's declared constant (which is
`NOTHING` for the base `RepoTask`), rather than being forced to empty. -/
theorem C4_amended_refresh_published_regardless (s : RunnerState) (t : Task)
    (h : s.workerBusy = some t) :
    (step s RunnerInput.workerFinish).trace
      = s.trace ++ [Event.execFinish t.tid t.execRaises]
          ++ (if t.execRaises then [Event.errorShown t.tid] else [])
          ++ [Event.refresh t.tid t.refreshWhat, Event.cleared t.tid] :=
  onTaskFinished_trace s t h

/-- Witness for the amended C4 at a failing task with mask 3. -/
theorem C4_amended_witness :
    (step (⟨some ⟨2, none, false, true, 3⟩, [], false,
        some ⟨2, none, false, true, 3⟩, []⟩ : RunnerState) RunnerInput.workerFinish).trace
      = [Event.execFinish 2 true, Event.errorShown 2, Event.refresh 2 3, Event.cleared 2] := by
  have h := C4_amended_refresh_published_regardless
    ⟨some ⟨2, none, false, true, 3⟩, [], false, some ⟨2, none, false, true, 3⟩, []⟩
    ⟨2, none, false, true, 3⟩ rfl
  simpa using h

/-- C5 counterexample: `TaskAffectsWhat` declares exactly three non-empty
flags (`INDEX`, `LOCALREFS`, `REMOTES`) — there is no fourth `Workdir`
flag, so the type does not offer four combinable flag values. -/
theorem C5_counterexample :
    (Finset.univ.filter fun m : TaskAffectsWhat => m.val ≠ 0).card = 3 ∧
    (3 : Nat) ≠ 4 := by
  decide

/-- C5 (amended): the refresh bitmask type offers exactly the three
combinable flag values `INDEX`, `LOCALREFS`, `REMOTES` (distinct powers
of two with pairwise disjoint bits) plus the empty value `NOTHING`, and
every task declares a fixed bitmask (`refreshWhat`) which the runner
publishes on the task's completion. -/
theorem C5_amended_three_flags :
    TaskAffectsWhat.NOTHING.val = 0 ∧
    TaskAffectsWhat.INDEX.val = 1 ∧
    TaskAffectsWhat.LOCALREFS.val = 2 ∧
    TaskAffectsWhat.REMOTES.val = 4 ∧
    (∀ m n : TaskAffectsWhat, m.val ≠ 0 → n.val ≠ 0 → m ≠ n →
      m.val &&& n.val = 0) ∧
    (∀ (s : RunnerState) (t : Task), s.workerBusy = some t →
      Event.refresh t.tid t.refreshWhat ∈ (step s RunnerInput.workerFinish).trace) := by
  refine ⟨rfl, rfl, rfl, rfl, by decide, ?_⟩
  intro s t h
  rw [onTaskFinished_trace s t h]
  simp

/-- Witness for the amended C5: disjointness of two concrete flags, and a
concrete completion publishing the task's declared mask. -/
theorem C5_amended_witness :
    TaskAffectsWhat.INDEX.val &&& TaskAffectsWhat.LOCALREFS.val = 0 ∧
    Event.refresh 5 2 ∈ (step (⟨some ⟨5, none, false, false, 2⟩, [], false,
        some ⟨5, none, false, false, 2⟩, []⟩ : RunnerState) RunnerInput.workerFinish).trace :=
  ⟨C5_amended_three_flags.2.2.2.2.1 TaskAffectsWhat.INDEX TaskAffectsWhat.LOCALREFS
      (by decide) (by decide) (by decide),
   C5_amended_three_flags.2.2.2.2.2
      ⟨some ⟨5, none, false, false, 2⟩, [], false, some ⟨5, none, false, false, 2⟩, []⟩
      ⟨5, none, false, false, 2⟩ rfl⟩

/-- C10: `currentTask` is always `None` or the single task most recently
accepted by `put`; every terminal path — abort at a suspend point,
exception raised during the flow, abort at flow exhaustion, worker
completion whether or not `execute()` raised — resets `currentTask` to
`None`; and an accepted task is never overwritten while `currentTask` is
non-`None`. -/
theorem C10_runner_slot_invariant :
    (∀ (inputs : List RunnerInput) (t : Task),
      (run initialRunner inputs).currentTask = some t →
      lastAccepted (run initialRunner inputs).trace = some t.tid) ∧
    (∀ (s : RunnerState) (t : Task), s.currentTask = some t → s.pendingToken = true →
      (step s RunnerInput.dialogReject).currentTask = none) ∧
    (∀ (s : RunnerState) (t : Task) (rest : List FlowStep),
      (_onContinueFlow s t (FlowStep.raiseExc :: rest)).currentTask = none) ∧
    (∀ (s : RunnerState) (t : Task), t.abortAtEnd = true →
      (_onContinueFlow s t []).currentTask = none) ∧
    (∀ (s : RunnerState) (t : Task), s.workerBusy = some t →
      (step s RunnerInput.workerFinish).currentTask = none) ∧
    (∀ (s : RunnerState) (t : Task), s.currentTask.isSome = true →
      (step s (RunnerInput.putTask t)).currentTask = s.currentTask) := by
  refine ⟨?_, ?_, ?_, ?_, ?_, ?_⟩
  · intro inputs t h
    exact currentInv_run inputs t h
  · intro s t hc hp
    obtain ⟨c, sf, p, w, tr⟩ := s
    have hc2 : c = some t := hc
    have hp2 : p = true := hp
    subst hc2
    subst hp2
    rfl
  · intro s t rest
    rfl
  · intro s t hab
    show (if t.abortAtEnd then _clearTask s t else _executeTask s t).currentTask = none
    rw [hab, if_pos rfl]
    rfl
  · intro s t h
    obtain ⟨c, sf, p, w, tr⟩ := s
    have hw : w = some t := h
    subst hw
    rfl
  · intro s t hc
    show (put s t).currentTask = s.currentTask
    rw [put, if_pos hc]

/-- Witness for C10: after accepting one task with a pending dialog, the
last accepted id matches the current task. -/
theorem C10_runner_slot_invariant_witness :
    lastAccepted (run initialRunner
        [RunnerInput.putTask ⟨1, some [FlowStep.yieldToken], false, false, 0⟩]).trace
      = some 1 :=
  C10_runner_slot_invariant.1
    [RunnerInput.putTask ⟨1, some [FlowStep.yieldToken], false, false, 0⟩]
    ⟨1, some [FlowStep.yieldToken], false, false, 0⟩ rfl

end RepoTaskRunner

/-! ## `showConflictErrorMessage` (repotask.py lines 13-44)

Reduced to the structure of the surfaced message box: `maxConflicts = 10`;
the title carries the conflict count; the bullet list shows
`exc.conflicts[:maxConflicts]`; when `numConflicts > maxConflicts` the
intro says it is showing the first `maxConflicts` of `numConflicts`, an
extra italic bullet notes the hidden count, and
`setDetailedText("\\n".join(exc.conflicts))` attaches the full list. -/

structure ConflictMessage where
  titleCount : Nat
  /-- `some (shown, total)` when the capped intro wording is used. -/
  capIntro : Option (Nat × Nat)
  listedPaths : List String
  /-- `some numHidden` when the "...and %n more" bullet is appended. -/
  hiddenNote : Option Nat
  detailedText : Option (List String)
deriving DecidableEq, Repr

def showConflictErrorMessage (conflicts : List String) : ConflictMessage :=
  let maxConflicts : Nat := 10
  let numConflicts := conflicts.length
  { titleCount := numConflicts
  , capIntro := if numConflicts > maxConflicts then some (maxConflicts, numConflicts) else none
  , listedPaths := conflicts.take maxConflicts
  , hiddenNote := if numConflicts > maxConflicts then some (numConflicts - maxConflicts) else none
  , detailedText := if numConflicts > maxConflicts then some conflicts else none }

/-! ## `PatchPurpose` (diffview.py lines 24-34)

`enum.IntFlag` members; `enum.auto()` assigns powers of two in order. -/

namespace PatchPurpose

def STAGE : Nat := 1
def UNSTAGE : Nat := 2
def DISCARD : Nat := 4
def LINES : Nat := 8
def HUNK : Nat := 16
def FILE : Nat := 32

end PatchPurpose

/-! ## `DiffView` line index (diffview.py)

`LineData` comes from `diffview/diffdocument.py` (not in the tree); only
the fields read by `diffview.py` are embedded: `cursorStart`/`cursorEnd`
(offsets into the rendered text buffer), `hunkPos.hunkID`,
`hunkPos.hunkLineNum` (negative for the synthetic hunk-header row) and
`clumpID` (-1 for context lines). -/

structure HunkPos where
  hunkID : Int
  hunkLineNum : Int
deriving DecidableEq, Repr, Inhabited

structure LineData where
  cursorStart : Nat
  cursorEnd : Nat
  hunkPos : HunkPos
  clumpID : Int
deriving DecidableEq, Repr, Inhabited

namespace DiffView

/-- `self.lineCursorStartCache = [ld.cursorStart for ld in self.lineData]`. -/
def lineCursorStartCache (lineData : List LineData) : List Int :=
  lineData.map fun ld => (ld.cursorStart : Int)

/-- Python `bisect.bisect_right(a, x, lo)` on an ascending list: the
insertion point, i.e. `lo` plus the number of leading elements of
`a[lo:]` that are `<= x`. -/
def bisect_right (a : List Int) (x : Int) (lo : Nat) : Nat :=
  lo + ((a.drop lo).takeWhile (fun v => decide (v ≤ x))).length

/-- `DiffView.findLineDataIndexAt` (diffview.py lines 552-556). -/
def findLineDataIndexAt (lineData : List LineData) (cursorPosition : Int)
    (firstLineDataIndex : Nat) : Int :=
  if lineData.isEmpty then -1
  else (bisect_right (lineCursorStartCache lineData) cursorPosition firstLineDataIndex : Int) - 1

/-- `while e < len-1 and p (e+1): e += 1` — the forward scans in
`selectClumpOfLinesAt`. -/
def extendWhile (p : Nat → Bool) (len : Nat) (e : Nat) : Nat :=
  if h : e + 1 < len then
    if p (e + 1) then extendWhile p len (e + 1) else e
  else e
termination_by len - e

/-- `while s > 0 and p (s-1): s -= 1` — the backward scan in
`selectClumpOfLinesAt`. -/
def shrinkWhile (p : Nat → Bool) : Nat → Nat
  | 0 => 0
  | s + 1 => if p s then shrinkWhile p s else s + 1

/-- `DiffView.selectClumpOfLinesAt` (diffview.py lines 824-858), reduced
to the record-index extent `[start, end]` it selects; `none` is the
`QApplication.beep()` (not actionable) path taken on a context line. -/
def selectClumpOfLinesAt (ldList : List LineData) (i : Nat) : Option (Nat × Nat) :=
  let ld := ldList.getD i default
  if ld.hunkPos.hunkLineNum < 0 then
    some (i, extendWhile
      (fun j => (ldList.getD j default).hunkPos.hunkID == ld.hunkPos.hunkID)
      ldList.length i)
  else if ld.clumpID < 0 then
    none
  else
    some (shrinkWhile (fun j => (ldList.getD j default).clumpID == ld.clumpID) i,
          extendWhile (fun j => (ldList.getD j default).clumpID == ld.clumpID)
            ldList.length i)

/-! ### Prefix-scan facts used for the binary-search semantics -/

theorem takeWhile_length_le (p : Int → Bool) (c : List Int) :
    (c.takeWhile p).length ≤ c.length := by
  induction c with
  | nil => simp
  | cons a l ih =>
    by_cases hp : p a
    · simp only [List.takeWhile, hp, List.length_cons]
      omega
    · simp only [List.takeWhile, hp, List.length_cons, List.length_nil]
      omega

theorem takeWhile_sat (p : Int → Bool) (c : List Int) (j : Nat)
    (hj : j < (c.takeWhile p).length) : p (c.getD j 0) = true := by
  induction c generalizing j with
  | nil => simp at hj
  | cons a l ih =>
    by_cases hp : p a
    · simp only [List.takeWhile, hp, List.length_cons] at hj
      cases j with
      | zero => simpa using hp
      | succ j =>
        simp only [List.getD_cons_succ]
        exact ih j (by omega)
    · simp only [List.takeWhile, hp, List.length_nil] at hj
      omega

theorem takeWhile_stop (p : Int → Bool) (c : List Int)
    (h : (c.takeWhile p).length < c.length) :
    p (c.getD (c.takeWhile p).length 0) = false := by
  induction c with
  | nil => simp at h
  | cons a l ih =>
    by_cases hp : p a
    · simp only [List.takeWhile, hp, List.length_cons] at h ⊢
      simpa using ih (by omega)
    · simp only [List.takeWhile, hp, List.length_nil, List.getD_cons_zero]

theorem sorted_getD_mono (c : List Int) (hs : c.Sorted (· ≤ ·)) :
    ∀ i j, i ≤ j → j < c.length → c.getD i 0 ≤ c.getD j 0 := by
  induction c with
  | nil => intro i j _ hj; simp at hj
  | cons a l ih =>
    intro i j hij hj
    rcases List.sorted_cons.mp hs with ⟨hall, htl⟩
    cases i with
    | zero =>
      cases j with
      | zero => exact le_refl _
      | succ j =>
        simp only [List.getD_cons_zero, List.getD_cons_succ]
        have hjl : j < l.length := by simpa using hj
        have hmem : l.getD j 0 ∈ l := by
          rw [List.getD_eq_getElem l 0 hjl]
          exact List.getElem_mem hjl
        exact hall _ hmem
    | succ i =>
      cases j with
      | zero => omega
      | succ j =>
        simp only [List.getD_cons_succ]
        exact ih htl i j (by omega) (by simpa using hj)

/-- `DiffView.fireApplyLines` (diffview.py lines 633-637): or in the
`LINES` granularity bit and compute `reverse = not (purpose & STAGE)`;
returns the final purpose and the `reverse` flag handed to the subpatch
extraction. -/
def fireApplyLines (purpose : Nat) : Nat × Bool :=
  let purpose2 := purpose ||| PatchPurpose.LINES
  (purpose2, (purpose2 &&& PatchPurpose.STAGE) == 0)

/-- `DiffView.fireApplyHunk` (diffview.py lines 639-643). -/
def fireApplyHunk (purpose : Nat) : Nat × Bool :=
  let purpose2 := purpose ||| PatchPurpose.HUNK
  (purpose2, (purpose2 &&& PatchPurpose.STAGE) == 0)

/-- C8: Extraction direction: for line-level and hunk-level apply
operations with purpose Stage, Unstage or Discard, the subpatch is
extracted with `reverse = (purpose != Stage)`: `reverse` is false exactly
when the purpose includes the Stage bit, true for Unstage and Discard. -/
theorem C8_extraction_direction (p : Nat)
    (hp : p = PatchPurpose.STAGE ∨ p = PatchPurpose.UNSTAGE ∨ p = PatchPurpose.DISCARD) :
    (fireApplyLines p).2 = decide (p ≠ PatchPurpose.STAGE) ∧
    (fireApplyHunk p).2 = decide (p ≠ PatchPurpose.STAGE) := by
  rcases hp with h | h | h <;> subst h <;> exact ⟨by decide, by decide⟩

/-- Witness for C8 at the Unstage purpose: both apply paths extract in
reverse. -/
theorem C8_extraction_direction_witness :
    (fireApplyLines PatchPurpose.UNSTAGE).2
      = decide (PatchPurpose.UNSTAGE ≠ PatchPurpose.STAGE) ∧
    (fireApplyHunk PatchPurpose.UNSTAGE).2
      = decide (PatchPurpose.UNSTAGE ≠ PatchPurpose.STAGE) :=
  C8_extraction_direction PatchPurpose.UNSTAGE (Or.inr (Or.inl rfl))

end DiffView

namespace DiffView

/-- Semantics of `bisect_right` (from index 0) on a sorted nonempty list
whose head is `<= x`: it returns one past the greatest index holding a
value `<= x`. -/
theorem bisect_core (c : List Int) (x : Int) (hs : c.Sorted (· ≤ ·))
    (c0 : Int) (ctl : List Int) (hc : c = c0 :: ctl) (hx : c0 ≤ x) :
    ∃ j : Nat, (c.takeWhile (fun v => decide (v ≤ x))).length = j + 1 ∧
      j < c.length ∧ c.getD j 0 ≤ x ∧
      ∀ k, k < c.length → c.getD k 0 ≤ x → k ≤ j := by
  have h1 : 1 ≤ (c.takeWhile (fun v => decide (v ≤ x))).length := by
    subst hc
    have hp0 : (fun v : Int => decide (v ≤ x)) c0 = true := by simpa using hx
    simp only [List.takeWhile, hp0, List.length_cons]
    omega
  have h2 : (c.takeWhile (fun v => decide (v ≤ x))).length ≤ c.length :=
    takeWhile_length_le _ c
  refine ⟨(c.takeWhile (fun v => decide (v ≤ x))).length - 1, by omega, by omega, ?_, ?_⟩
  · have := takeWhile_sat (fun v => decide (v ≤ x)) c
      ((c.takeWhile (fun v => decide (v ≤ x))).length - 1) (by omega)
    simpa using this
  · intro k hk hkx
    by_contra hlt
    have hge : (c.takeWhile (fun v => decide (v ≤ x))).length ≤ k := by omega
    have htlt : (c.takeWhile (fun v => decide (v ≤ x))).length < c.length := by omega
    have hstop := takeWhile_stop (fun v => decide (v ≤ x)) c htlt
    have hmono := sorted_getD_mono c hs
      (c.takeWhile (fun v => decide (v ≤ x))).length k hge hk
    simp only [decide_eq_false_iff_not] at hstop
    exact hstop (le_trans hmono hkx)

/-! ### Facts about the gutter scan loops -/

theorem extendWhile_ge (p : Nat → Bool) (len e : Nat) : e ≤ extendWhile p len e := by
  rw [extendWhile]
  split_ifs with h1 h2
  · have := extendWhile_ge p len (e + 1)
    omega
  · exact Nat.le_refl e
  · exact Nat.le_refl e
termination_by len - e

theorem extendWhile_lt_len (p : Nat → Bool) (len e : Nat) (h : e < len) :
    extendWhile p len e < len := by
  rw [extendWhile]
  split_ifs with h1 h2
  · exact extendWhile_lt_len p len (e + 1) h1
  · exact h
  · exact h
termination_by len - e

theorem extendWhile_all (p : Nat → Bool) (len e : Nat) :
    ∀ j, e < j → j ≤ extendWhile p len e → p j = true := by
  intro j hj1 hj2
  rw [extendWhile] at hj2
  split_ifs at hj2 with h1 h2
  · by_cases hje : j = e + 1
    · subst hje; exact h2
    · exact extendWhile_all p len (e + 1) j (by omega) hj2
  · omega
  · omega
termination_by len - e

theorem extendWhile_stop (p : Nat → Bool) (len e : Nat)
    (h : extendWhile p len e + 1 < len) : p (extendWhile p len e + 1) = false := by
  rw [extendWhile] at h ⊢
  split_ifs at h ⊢ with h1 h2
  · exact extendWhile_stop p len (e + 1) h
  · simpa using h2
  · exact absurd h h1
termination_by len - e

theorem shrinkWhile_le (p : Nat → Bool) (s : Nat) : shrinkWhile p s ≤ s := by
  induction s with
  | zero => exact Nat.le_refl 0
  | succ s ih =>
    simp only [shrinkWhile]
    split_ifs with hp
    · omega
    · exact Nat.le_refl _

theorem shrinkWhile_all (p : Nat → Bool) (s : Nat) :
    ∀ j, shrinkWhile p s ≤ j → j < s → p j = true := by
  induction s with
  | zero => intro j h1 h2; omega
  | succ s ih =>
    intro j h1 h2
    simp only [shrinkWhile] at h1
    split_ifs at h1 with hp
    · by_cases hjs : j = s
      · subst hjs; exact hp
      · exact ih j h1 (by omega)
    · omega

theorem shrinkWhile_stop (p : Nat → Bool) (s : Nat) :
    shrinkWhile p s = 0 ∨ p (shrinkWhile p s - 1) = false := by
  induction s with
  | zero => exact Or.inl rfl
  | succ s ih =>
    simp only [shrinkWhile]
    split_ifs with hp
    · exact ih
    · right
      simpa using hp

/-- C6: `clumpExtent`: on a well-formed line index (hunk ids
non-decreasing, a synthetic header row is the first record of its hunk),
`selectClumpOfLinesAt` at a hunk-header row selects exactly the whole
hunk; at a context line (`clumpID == -1`) it reports not-actionable
(beep, `none`); otherwise it selects the maximal contiguous inclusive
record range sharing the record's `clumpID`. -/
theorem C6_clumpExtent (ldList : List LineData) (i : Nat) (hi : i < ldList.length)
    (hmono : ∀ b, b < ldList.length → ∀ a, a ≤ b →
      (ldList.getD a default).hunkPos.hunkID ≤ (ldList.getD b default).hunkPos.hunkID)
    (hfirst : ∀ j, j < ldList.length → (ldList.getD j default).hunkPos.hunkLineNum < 0 →
      ∀ k, k < j →
        (ldList.getD k default).hunkPos.hunkID ≠ (ldList.getD j default).hunkPos.hunkID) :
    ((ldList.getD i default).hunkPos.hunkLineNum < 0 →
      ∃ e, selectClumpOfLinesAt ldList i = some (i, e) ∧ i ≤ e ∧ e < ldList.length ∧
        ∀ j, j < ldList.length →
          ((ldList.getD j default).hunkPos.hunkID = (ldList.getD i default).hunkPos.hunkID
            ↔ (i ≤ j ∧ j ≤ e))) ∧
    (0 ≤ (ldList.getD i default).hunkPos.hunkLineNum →
      (ldList.getD i default).clumpID = -1 →
      selectClumpOfLinesAt ldList i = none) ∧
    (0 ≤ (ldList.getD i default).hunkPos.hunkLineNum →
      0 ≤ (ldList.getD i default).clumpID →
      ∃ st en, selectClumpOfLinesAt ldList i = some (st, en) ∧
        st ≤ i ∧ i ≤ en ∧ en < ldList.length ∧
        (∀ j, st ≤ j → j ≤ en →
          (ldList.getD j default).clumpID = (ldList.getD i default).clumpID) ∧
        (st = 0 ∨ (ldList.getD (st - 1) default).clumpID ≠ (ldList.getD i default).clumpID) ∧
        (en = ldList.length - 1 ∨
          (ldList.getD (en + 1) default).clumpID ≠ (ldList.getD i default).clumpID)) := by
  refine ⟨?_, ?_, ?_⟩
  · -- hunk-header row: whole hunk
    intro hh
    refine ⟨extendWhile (fun j => (ldList.getD j default).hunkPos.hunkID
        == (ldList.getD i default).hunkPos.hunkID) ldList.length i, ?_, ?_, ?_, ?_⟩
    · simp only [selectClumpOfLinesAt]
      rw [if_pos hh]
    · exact extendWhile_ge _ ldList.length i
    · exact extendWhile_lt_len _ ldList.length i hi
    · intro j hj
      constructor
      · intro hsame
        constructor
        · by_contra hji
          exact hfirst i hi hh j (by omega) hsame
        · by_contra hje
          have hE := extendWhile_lt_len (fun j => (ldList.getD j default).hunkPos.hunkID
              == (ldList.getD i default).hunkPos.hunkID) ldList.length i hi
          have hE1lt : extendWhile (fun j => (ldList.getD j default).hunkPos.hunkID
              == (ldList.getD i default).hunkPos.hunkID) ldList.length i + 1 < ldList.length := by
            omega
          have hstop := extendWhile_stop (fun j => (ldList.getD j default).hunkPos.hunkID
              == (ldList.getD i default).hunkPos.hunkID) ldList.length i hE1lt
          have hge := extendWhile_ge (fun j => (ldList.getD j default).hunkPos.hunkID
              == (ldList.getD i default).hunkPos.hunkID) ldList.length i
          have hlo : (ldList.getD i default).hunkPos.hunkID
              ≤ (ldList.getD (extendWhile (fun j => (ldList.getD j default).hunkPos.hunkID
                  == (ldList.getD i default).hunkPos.hunkID) ldList.length i + 1)
                  default).hunkPos.hunkID :=
            hmono _ hE1lt i (by omega)
          have hhij : (ldList.getD (extendWhile (fun j => (ldList.getD j default).hunkPos.hunkID
              == (ldList.getD i default).hunkPos.hunkID) ldList.length i + 1)
              default).hunkPos.hunkID ≤ (ldList.getD j default).hunkPos.hunkID :=
            hmono j hj _ (by omega)
          rw [hsame] at hhij
          have heq : (ldList.getD (extendWhile (fun j => (ldList.getD j default).hunkPos.hunkID
              == (ldList.getD i default).hunkPos.hunkID) ldList.length i + 1)
              default).hunkPos.hunkID = (ldList.getD i default).hunkPos.hunkID :=
            le_antisymm hhij hlo
          simp only [beq_eq_false_iff_ne, ne_eq] at hstop
          exact hstop heq
      · rintro ⟨hij, hje⟩
        by_cases hji : j = i
        · subst hji; rfl
        · have := extendWhile_all (fun j => (ldList.getD j default).hunkPos.hunkID
              == (ldList.getD i default).hunkPos.hunkID) ldList.length i j (by omega) hje
          simpa using this
  · -- context line: beep
    intro hh hcl
    simp only [selectClumpOfLinesAt]
    rw [if_neg (by omega), if_pos (by omega)]
  · -- clump extent
    intro hh hcl
    refine ⟨shrinkWhile (fun j => (ldList.getD j default).clumpID
        == (ldList.getD i default).clumpID) i,
      extendWhile (fun j => (ldList.getD j default).clumpID
        == (ldList.getD i default).clumpID) ldList.length i, ?_, ?_, ?_, ?_, ?_, ?_, ?_⟩
    · simp only [selectClumpOfLinesAt]
      rw [if_neg (by omega), if_neg (by omega)]
    · exact shrinkWhile_le _ i
    · exact extendWhile_ge _ ldList.length i
    · exact extendWhile_lt_len _ ldList.length i hi
    · intro j hj1 hj2
      rcases Nat.lt_trichotomy j i with hji | hji | hji
      · have := shrinkWhile_all (fun j => (ldList.getD j default).clumpID
            == (ldList.getD i default).clumpID) i j hj1 hji
        simpa using this
      · subst hji; rfl
      · have := extendWhile_all (fun j => (ldList.getD j default).clumpID
            == (ldList.getD i default).clumpID) ldList.length i j hji hj2
        simpa using this
    · rcases shrinkWhile_stop (fun j => (ldList.getD j default).clumpID
          == (ldList.getD i default).clumpID) i with h0 | hst
      · exact Or.inl h0
      · right
        simpa using hst
    · by_cases hE : extendWhile (fun j => (ldList.getD j default).clumpID
          == (ldList.getD i default).clumpID) ldList.length i = ldList.length - 1
      · exact Or.inl hE
      · right
        have hElt := extendWhile_lt_len (fun j => (ldList.getD j default).clumpID
            == (ldList.getD i default).clumpID) ldList.length i hi
        have hstop := extendWhile_stop (fun j => (ldList.getD j default).clumpID
            == (ldList.getD i default).clumpID) ldList.length i (by omega)
        simpa using hstop

/-- Line index for a one-hunk patch `[header, context, +a, +b, -c,
context]`: the two added lines form clump 0, the removed line clump 1. -/
def exampleIndex : List LineData :=
  [⟨0, 0, ⟨0, -1⟩, -1⟩,
   ⟨1, 1, ⟨0, 0⟩, -1⟩,
   ⟨2, 2, ⟨0, 1⟩, 0⟩,
   ⟨3, 3, ⟨0, 2⟩, 0⟩,
   ⟨4, 4, ⟨0, 3⟩, 1⟩,
   ⟨5, 5, ⟨0, 4⟩, -1⟩]

/-- Witness for C6 at the `+a` record of the example index: the selected
extent is exactly the `{+a, +b}` clump. -/
theorem C6_clumpExtent_witness :
    ∃ st en, selectClumpOfLinesAt exampleIndex 2 = some (st, en) ∧
      st ≤ 2 ∧ 2 ≤ en ∧ en < exampleIndex.length ∧
      (∀ j, st ≤ j → j ≤ en →
        (exampleIndex.getD j default).clumpID = (exampleIndex.getD 2 default).clumpID) ∧
      (st = 0 ∨
        (exampleIndex.getD (st - 1) default).clumpID ≠ (exampleIndex.getD 2 default).clumpID) ∧
      (en = exampleIndex.length - 1 ∨
        (exampleIndex.getD (en + 1) default).clumpID ≠ (exampleIndex.getD 2 default).clumpID) :=
  (C6_clumpExtent exampleIndex 2 (by decide) (by decide) (by decide)).2.2
    (by decide) (by decide)

/-- C7 counterexample: with one record whose `textStart` is 5, the lookup
at offset 0 returns the sentinel -1, not index 0: `bisect_right` yields 0
and `findLineDataIndexAt` returns `0 - 1`, so offsets before the first
record are not clamped to the first index as the claim states. -/
theorem C7_counterexample :
    findLineDataIndexAt [⟨5, 6, ⟨0, 0⟩, -1⟩] 0 0 = -1 ∧ (-1 : Int) ≠ 0 := by
  exact ⟨by decide, by decide⟩

/-- C7 (amended): `findLineDataIndexAt` returns the index of the last
record whose `textStart <= offset` whenever some record starts at or
before the offset (hence offsets past the end clamp to the last index);
an offset strictly before the first record's `textStart` returns the
not-found sentinel -1, as does an index with no records. -/
theorem C7_amended_lineAt (lineData : List LineData) (x : Int)
    (hs : (lineCursorStartCache lineData).Sorted (· ≤ ·)) :
    (lineData.isEmpty = true → findLineDataIndexAt lineData x 0 = -1) ∧
    (∀ ld0 rest, lineData = ld0 :: rest → x < (ld0.cursorStart : Int) →
      findLineDataIndexAt lineData x 0 = -1) ∧
    (∀ ld0 rest, lineData = ld0 :: rest → (ld0.cursorStart : Int) ≤ x →
      ∃ j : Nat, findLineDataIndexAt lineData x 0 = (j : Int) ∧
        j < lineData.length ∧
        (lineCursorStartCache lineData).getD j 0 ≤ x ∧
        (∀ k, k < lineData.length →
          (lineCursorStartCache lineData).getD k 0 ≤ x → k ≤ j)) := by
  refine ⟨?_, ?_, ?_⟩
  · intro he
    rw [findLineDataIndexAt, if_pos he]
  · intro ld0 rest hl hx
    subst hl
    rw [findLineDataIndexAt, if_neg (by simp)]
    have hp0 : (fun v : Int => decide (v ≤ x)) ((ld0.cursorStart : Int)) = false := by
      simpa using hx
    have h0 : ((lineCursorStartCache (ld0 :: rest)).takeWhile
        (fun v => decide (v ≤ x))).length = 0 := by
      simp only [lineCursorStartCache, List.map_cons, List.takeWhile, hp0, List.length_nil]
    rw [bisect_right]
    simp only [List.drop_zero]
    rw [h0]
    rfl
  · intro ld0 rest hl hx
    have hlen : (lineCursorStartCache lineData).length = lineData.length := by
      simp [lineCursorStartCache]
    obtain ⟨j, hj1, hj2, hj3, hj4⟩ :=
      bisect_core (lineCursorStartCache lineData) x hs ((ld0.cursorStart : Int))
        (lineCursorStartCache rest)
        (by rw [hl]; simp [lineCursorStartCache]) hx
    refine ⟨j, ?_, by omega, hj3, fun k hk hkx => hj4 k (by omega) hkx⟩
    rw [findLineDataIndexAt, if_neg (by rw [hl]; simp)]
    rw [bisect_right]
    simp only [List.drop_zero]
    rw [hj1]
    push_cast
    ring

/-- Witness for the amended C7: two records starting at 0 and 5, offset
7: the lookup returns the last record, index 1. -/
theorem C7_amended_witness :
    ∃ j : Nat,
      findLineDataIndexAt [⟨0, 1, ⟨0, 0⟩, -1⟩, ⟨5, 6, ⟨0, 1⟩, -1⟩] 7 0 = (j : Int) ∧
      j < ([⟨0, 1, ⟨0, 0⟩, -1⟩, ⟨5, 6, ⟨0, 1⟩, -1⟩] : List LineData).length ∧
      (lineCursorStartCache [⟨0, 1, ⟨0, 0⟩, -1⟩, ⟨5, 6, ⟨0, 1⟩, -1⟩]).getD j 0 ≤ 7 ∧
      (∀ k, k < ([⟨0, 1, ⟨0, 0⟩, -1⟩, ⟨5, 6, ⟨0, 1⟩, -1⟩] : List LineData).length →
        (lineCursorStartCache [⟨0, 1, ⟨0, 0⟩, -1⟩, ⟨5, 6, ⟨0, 1⟩, -1⟩]).getD k 0 ≤ 7 →
        k ≤ j) :=
  (C7_amended_lineAt [⟨0, 1, ⟨0, 0⟩, -1⟩, ⟨5, 6, ⟨0, 1⟩, -1⟩] 7
      (by simp [lineCursorStartCache, List.sorted_cons])).2.2
    ⟨0, 1, ⟨0, 0⟩, -1⟩ [⟨5, 6, ⟨0, 1⟩, -1⟩] rfl (by decide)

end DiffView

/-- C9: Conflict-error display cap: the surfaced message lists the first
`min n 10` conflicting paths; when `n > 10` the intro states it is
showing the first 10 of `n`, a bullet notes the remaining `n - 10`, and
the complete list of all `n` paths is attached as detailed text. -/
theorem C9_conflict_display_cap (conflicts : List String) :
    (showConflictErrorMessage conflicts).titleCount = conflicts.length ∧
    (showConflictErrorMessage conflicts).listedPaths
      = conflicts.take (min conflicts.length 10) ∧
    (showConflictErrorMessage conflicts).listedPaths.length
      = min conflicts.length 10 ∧
    (conflicts.length > 10 →
      (showConflictErrorMessage conflicts).capIntro = some (10, conflicts.length) ∧
      (showConflictErrorMessage conflicts).hiddenNote = some (conflicts.length - 10) ∧
      (showConflictErrorMessage conflicts).detailedText = some conflicts) := by
  refine ⟨rfl, ?_, ?_, ?_⟩
  · show conflicts.take 10 = conflicts.take (min conflicts.length 10)
    rcases le_total conflicts.length 10 with h | h
    · rw [min_eq_left h, List.take_length, List.take_of_length_le h]
    · rw [min_eq_right h]
  · show (conflicts.take 10).length = min conflicts.length 10
    rw [List.length_take, Nat.min_comm]
  · intro h
    refine ⟨?_, ?_, ?_⟩ <;>
      simp [showConflictErrorMessage, h]

/-- Witness for C9 with eleven conflicting paths: capped intro, one
hidden path, full list attached. -/
theorem C9_conflict_display_cap_witness :
    (showConflictErrorMessage ["a","b","c","d","e","f","g","h","i","j","k"]).capIntro
      = some (10, 11) ∧
    (showConflictErrorMessage ["a","b","c","d","e","f","g","h","i","j","k"]).hiddenNote
      = some 1 ∧
    (showConflictErrorMessage ["a","b","c","d","e","f","g","h","i","j","k"]).detailedText
      = some ["a","b","c","d","e","f","g","h","i","j","k"] :=
  (C9_conflict_display_cap ["a","b","c","d","e","f","g","h","i","j","k"]).2.2.2
    (by decide)


/-! ## SubpatchExtractor (spec section 4.2)

`gitfourchette/subpatch.py` (`extractSubpatch`) is imported by
`diffview.py` but is not part of the source tree; only its callers are.
The extractor below is modelled from the spec.  The older
`widgets/diffview.py` (which is in the tree) fixes the boundary policy:
it passes `plusLinesAreContext=reverse` to its patch builder. -/

inductive DiffOrigin where
  | context
  | addition
  | removal
deriving DecidableEq, Repr

structure DiffLine where
  origin : DiffOrigin
deriving DecidableEq, Repr

structure DiffHunk where
  oldStart : Nat
  newStart : Nat
  lines : List DiffLine
deriving DecidableEq, Repr

/-- A hunk of the synthesized sub-patch, with its recomputed header. -/
structure ExtractedHunk where
  oldStart : Nat
  newStart : Nat
  declaredOldLength : Nat
  declaredNewLength : Nat
  lines : List DiffLine
deriving DecidableEq, Repr

namespace SubpatchExtractor

/-- Modelled from the spec: the per-line emission rule of
`extractSubpatch` (gitfourchette/subpatch.py, missing from the tree).
Spec section 4.2: a selected line keeps its origin, with
`added <-> removed` swapped when `reverse`; an unselected addition is
demoted to context under the `plusLinesAreContext` policy (the caller
sets `plusLinesAreContext = reverse`, per `widgets/diffview.py`) and
dropped otherwise; symmetrically an unselected removal is dropped under
`plusLinesAreContext` and demoted to context otherwise; unselected
context lines are kept. -/
def emitLine (reverse selected : Bool) (l : DiffLine) : Option DiffLine :=
  if selected then
    match l.origin, reverse with
    | .context, _ => some ⟨.context⟩
    | .addition, false => some ⟨.addition⟩
    | .addition, true => some ⟨.removal⟩
    | .removal, false => some ⟨.removal⟩
    | .removal, true => some ⟨.addition⟩
  else
    match l.origin, reverse with
    | .context, _ => some ⟨.context⟩
    | .addition, true => some ⟨.context⟩
    | .addition, false => none
    | .removal, true => none
    | .removal, false => some ⟨.context⟩

/-- Modelled from the spec: the body of an emitted hunk; `sel k` decides
whether the k-th line of the source hunk is in the requested range. -/
def emitHunk (reverse : Bool) (sel : Nat → Bool) : Nat → List DiffLine → List DiffLine
  | _, [] => []
  | k, l :: ls =>
    match emitLine reverse (sel k) l with
    | some l2 => l2 :: emitHunk reverse sel (k + 1) ls
    | none => emitHunk reverse sel (k + 1) ls

/-- Modelled from the spec: the old/new line counts of the recomputed
hunk header, accumulated during the same scan (an emitted context line
counts toward both lengths, a removal toward the old length, an addition
toward the new length). -/
def emitHunkCounts (reverse : Bool) (sel : Nat → Bool) : Nat → List DiffLine → Nat × Nat
  | _, [] => (0, 0)
  | k, l :: ls =>
    let rest := emitHunkCounts reverse sel (k + 1) ls
    match emitLine reverse (sel k) l with
    | some l2 =>
      match l2.origin with
      | .context => (rest.1 + 1, rest.2 + 1)
      | .removal => (rest.1 + 1, rest.2)
      | .addition => (rest.1, rest.2 + 1)
    | none => rest

/-- Modelled from the spec: extraction of one source hunk: emit the body,
recompute the header counts, copy the start positions (swapped when
`reverse`, per spec section 4.2 Reversal). -/
def extractHunk (h : DiffHunk) (sel : Nat → Bool) (reverse : Bool) : ExtractedHunk :=
  { oldStart := if reverse then h.newStart else h.oldStart
  , newStart := if reverse then h.oldStart else h.newStart
  , declaredOldLength := (emitHunkCounts reverse sel 0 h.lines).1
  , declaredNewLength := (emitHunkCounts reverse sel 0 h.lines).2
  , lines := emitHunk reverse sel 0 h.lines }

/-- Modelled from the spec: `extract(patch, startLine, endLine, reverse)`
walks the hunks, keeping a running base of global line indices, and emits
one independent block per source hunk touched by the inclusive range. -/
def extractGo (startLine endLine : Nat) (reverse : Bool) :
    Nat → List DiffHunk → List ExtractedHunk
  | _, [] => []
  | base, h :: hs =>
    if (List.range h.lines.length).any
        (fun k => decide (startLine ≤ base + k) && decide (base + k ≤ endLine)) then
      extractHunk h (fun k => decide (startLine ≤ base + k) && decide (base + k ≤ endLine))
          reverse
        :: extractGo startLine endLine reverse (base + h.lines.length) hs
    else extractGo startLine endLine reverse (base + h.lines.length) hs

def extract (hunks : List DiffHunk) (startLine endLine : Nat) (reverse : Bool) :
    List ExtractedHunk :=
  extractGo startLine endLine reverse 0 hunks

/-- Global index of the first line of hunk `hunkId`. -/
def hunkStartIndex (hunks : List DiffHunk) : Nat → Nat
  | 0 => 0
  | hunkId + 1 =>
    match hunks with
    | [] => 0
    | h :: hs => h.lines.length + hunkStartIndex hs hunkId

/-- Modelled from the spec: `extractHunk(patch, hunkId, reverse)` — as in
`DiffView.extractHunk`, the whole-hunk range is converted to the global
line range covering exactly that hunk and fed to `extract`. -/
def extractHunkById (hunks : List DiffHunk) (hunkId : Nat) (reverse : Bool) :
    List ExtractedHunk :=
  extract hunks (hunkStartIndex hunks hunkId)
    (hunkStartIndex hunks hunkId + (hunks.getD hunkId ⟨0, 0, []⟩).lines.length - 1) reverse

def contextCount (ls : List DiffLine) : Nat :=
  (ls.filter fun l => l.origin == DiffOrigin.context).length

def removedCount (ls : List DiffLine) : Nat :=
  (ls.filter fun l => l.origin == DiffOrigin.removal).length

def addedCount (ls : List DiffLine) : Nat :=
  (ls.filter fun l => l.origin == DiffOrigin.addition).length

/-- The counts accumulated while emitting agree with recounting the
emitted body. -/
theorem emit_counts (reverse : Bool) (sel : Nat → Bool) (k : Nat) (ls : List DiffLine) :
    contextCount (emitHunk reverse sel k ls) + removedCount (emitHunk reverse sel k ls)
      = (emitHunkCounts reverse sel k ls).1 ∧
    contextCount (emitHunk reverse sel k ls) + addedCount (emitHunk reverse sel k ls)
      = (emitHunkCounts reverse sel k ls).2 := by
  induction ls generalizing k with
  | nil => exact ⟨rfl, rfl⟩
  | cons l ls ih =>
    obtain ⟨ih1, ih2⟩ := ih (k + 1)
    simp only [emitHunk, emitHunkCounts]
    cases hel : emitLine reverse (sel k) l with
    | none => exact ⟨ih1, ih2⟩
    | some l2 =>
      simp only [contextCount, removedCount, addedCount] at ih1 ih2 ⊢
      cases ho : l2.origin <;>
        refine ⟨?_, ?_⟩ <;>
        simp [List.filter_cons, ho] <;>
        omega

/-- Every hunk produced by `extractGo` has a consistent recomputed
header. -/
theorem extractGo_counts (startLine endLine : Nat) (reverse : Bool)
    (hs : List DiffHunk) :
    ∀ (base : Nat), ∀ h ∈ extractGo startLine endLine reverse base hs,
      contextCount h.lines + removedCount h.lines = h.declaredOldLength ∧
      contextCount h.lines + addedCount h.lines = h.declaredNewLength := by
  induction hs with
  | nil =>
    intro base h hmem
    simp [extractGo] at hmem
  | cons hd tl ih =>
    intro base h hmem
    simp only [extractGo] at hmem
    split at hmem
    · rcases List.mem_cons.mp hmem with heq | hmem2
      · subst heq
        exact emit_counts reverse _ 0 hd.lines
      · exact ih (base + hd.lines.length) h hmem2
    · exact ih (base + hd.lines.length) h hmem

end SubpatchExtractor

/-- C3: Hunk header arithmetic: for every input patch, every line range
or hunk id, and either value of `reverse`, every hunk emitted by
`extract` / `extractHunkById` satisfies
`contextCount + removedCount = declaredOldLength` and
`contextCount + addedCount = declaredNewLength` in its recomputed
header. -/
theorem C3_hunk_header_arithmetic (hunks : List DiffHunk)
    (startLine endLine : Nat) (reverse : Bool) :
    (∀ h ∈ SubpatchExtractor.extract hunks startLine endLine reverse,
      SubpatchExtractor.contextCount h.lines + SubpatchExtractor.removedCount h.lines
        = h.declaredOldLength ∧
      SubpatchExtractor.contextCount h.lines + SubpatchExtractor.addedCount h.lines
        = h.declaredNewLength) ∧
    (∀ hunkId, ∀ h ∈ SubpatchExtractor.extractHunkById hunks hunkId reverse,
      SubpatchExtractor.contextCount h.lines + SubpatchExtractor.removedCount h.lines
        = h.declaredOldLength ∧
      SubpatchExtractor.contextCount h.lines + SubpatchExtractor.addedCount h.lines
        = h.declaredNewLength) := by
  constructor
  · intro h hmem
    exact SubpatchExtractor.extractGo_counts startLine endLine reverse hunks 0 h hmem
  · intro hunkId h hmem
    exact SubpatchExtractor.extractGo_counts _ _ reverse hunks 0 h hmem

/-- Witness for C3: the spec section 8 scenario — hunk
`[" a", "+b", " c"]`, extracting only the added line `+b` forward yields
the body `[" a", "+b", " c"]` with recomputed header lengths old 2 /
new 3 (all three source lines stay: the unselected context lines are
kept as context), and the counts match. -/
theorem C3_hunk_header_arithmetic_witness :
    (⟨1, 1, 2, 3,
        [⟨DiffOrigin.context⟩, ⟨DiffOrigin.addition⟩, ⟨DiffOrigin.context⟩]⟩ : ExtractedHunk)
      ∈ SubpatchExtractor.extract
          [⟨1, 1, [⟨DiffOrigin.context⟩, ⟨DiffOrigin.addition⟩, ⟨DiffOrigin.context⟩]⟩]
          1 1 false ∧
    SubpatchExtractor.contextCount
        [⟨DiffOrigin.context⟩, ⟨DiffOrigin.addition⟩, ⟨DiffOrigin.context⟩]
      + SubpatchExtractor.removedCount
        [⟨DiffOrigin.context⟩, ⟨DiffOrigin.addition⟩, ⟨DiffOrigin.context⟩] = 2 ∧
    SubpatchExtractor.contextCount
        [⟨DiffOrigin.context⟩, ⟨DiffOrigin.addition⟩, ⟨DiffOrigin.context⟩]
      + SubpatchExtractor.addedCount
        [⟨DiffOrigin.context⟩, ⟨DiffOrigin.addition⟩, ⟨DiffOrigin.context⟩] = 3 := by
  refine ⟨by decide, ?_, ?_⟩
  · exact ((C3_hunk_header_arithmetic
      [⟨1, 1, [⟨DiffOrigin.context⟩, ⟨DiffOrigin.addition⟩, ⟨DiffOrigin.context⟩]⟩]
      1 1 false).1
      ⟨1, 1, 2, 3, [⟨DiffOrigin.context⟩, ⟨DiffOrigin.addition⟩, ⟨DiffOrigin.context⟩]⟩
      (by decide)).1
  · exact ((C3_hunk_header_arithmetic
      [⟨1, 1, [⟨DiffOrigin.context⟩, ⟨DiffOrigin.addition⟩, ⟨DiffOrigin.context⟩]⟩]
      1 1 false).1
      ⟨1, 1, 2, 3, [⟨DiffOrigin.context⟩, ⟨DiffOrigin.addition⟩, ⟨DiffOrigin.context⟩]⟩
      (by decide)).2

end Gitfourchette
